import Mathlib

/-!
The shared-memory mailbox of Programming_HW2

Two character devices share one `struct shared_data` and one mutex:
`lkmasg1_in.c` stores a message with `write`, `pa2_out.c` hands it out and
clears it with `read`.  The definitions below follow the two C functions line
by line; the mutex is a flag in the state, and a call is one atomic step.
-/

namespace HW2

/-- One `char` of a C array. -/
abbrev Byte := Fin 256

/-- The buffer size, `MAX_SIZE 1024` in both files. -/
def MAX_SIZE : Nat := 1024

/-- The errno value behind `-EBUSY`. -/
def EBUSY : Int := 16

/-- The errno value behind `-EFAULT`. -/
def EFAULT : Int := 14

/-- The shared record: `struct shared_data` with `char message[MAX_SIZE]` and
`short message_size`. -/
structure shared_data where
  message : List Byte
  message_size : Int
  deriving DecidableEq, Repr

/-- The module state both endpoints work on: the allocated `*shared_memory`
and `input_mutex` (`true` while some caller holds it).  The state stands for a
loaded module, where `shared_memory` is not `NULL`. -/
structure State where
  shared_memory : shared_data
  input_mutex : Bool
  deriving DecidableEq, Repr

/-- The record after `memset(shared_memory, 0, sizeof(struct shared_data))`. -/
def memset : shared_data :=
  { message := List.replicate MAX_SIZE 0, message_size := 0 }

/-- The mailbox after module start: the memory is zeroed and the mutex is free. -/
def fresh : State :=
  { shared_memory := memset, input_mutex := false }

/-- The C string at a pointer: the bytes before the first NUL.  `mem` is the
memory from the pointer onward; the string also stops where `mem` stops. -/
def cstr (mem : List Byte) : List Byte :=
  mem.takeWhile (fun b => b ≠ 0)

/-- The call `snprintf(dst, size, "%s", src)`: the first `size - 1` bytes of the string
at `src` and a NUL go to the start of `dst`, the rest of `dst` stays; the
return value is the length of the whole string at `src`. -/
def snprintf (dst : List Byte) (size : Nat) (src : List Byte) : List Byte × Int :=
  let out := (cstr src).take (size - 1) ++ [0]
  (out ++ dst.drop out.length, ((cstr src).length : Int))

/-- Conversion of an `int` to `short` (16 bit, two's complement). -/
def toShort (n : Int) : Int :=
  (n + 32768) % 65536 - 32768

/-- Conversion of a `short` to `unsigned long` (64 bit). -/
def toULong (v : Int) : Nat :=
  (v % 18446744073709551616).toNat

/-- Conversion of an `unsigned long` to `int` (32 bit, two's complement). -/
def toInt32 (n : Nat) : Int :=
  ((n : Int) + 2147483648) % 4294967296 - 2147483648

/-- Conversion of an `unsigned long` to a signed 64 bit type, `ssize_t` or
`loff_t` (two's complement). -/
def toInt64 (n : Nat) : Int :=
  ((n : Int) + 9223372036854775808) % 18446744073709551616 - 9223372036854775808

/-- The function `write` of lkmasg1_in.c.  `buffer` is the caller's memory at the pointer
passed in, `len` the length passed in.  The stack array `tmp_message` starts
out undefined, so only the bytes `snprintf` stores in it are kept.  The result
is the new state and the value returned to the caller. -/
def write (s : State) (buffer : List Byte) (len : Nat) : State × Int :=
  let len := if len ≥ MAX_SIZE then MAX_SIZE - 1 else len
  let tmp := snprintf [] MAX_SIZE buffer
  let tmp_message := if tmp.2 ≥ (MAX_SIZE : Int) then tmp.1.set (MAX_SIZE - 1) 0 else tmp.1
  if s.input_mutex then (s, -EBUSY)
  else
    let out := snprintf memset.message MAX_SIZE tmp_message
    let message_size := toShort out.2
    let message := out.1.set message_size.toNat 0
    ({ shared_memory := { message := message, message_size := message_size },
       input_mutex := false }, (len : Int))

/-- What `copy_to_user` did. -/
structure Copy where
  /-- Bytes from inside the array that were stored in the caller's buffer. -/
  stored : List Byte
  /-- How many of the bytes read lie past the last element of the array. -/
  past_end : Nat
  /-- The return value: how many bytes could not be copied. -/
  not_copied : Nat
  deriving DecidableEq, Repr

/-- The call `copy_to_user(to, arr + start, n)` where `writable` bytes can be stored at
`to`: the bytes `arr[start], arr[start+1], ...` are copied until `n` are done
or the destination faults.  No bound of `arr` is checked. -/
def copy_to_user (writable : Nat) (arr : List Byte) (start n : Nat) : Copy :=
  let k := min n writable
  { stored := (arr.drop start).take k
    past_end := start + k - arr.length
    not_copied := n - k }

/-- The outcome of one `read` call. -/
structure ReadResult where
  /-- The value returned to the caller. -/
  ret : Int
  /-- Bytes of the message array stored in the caller's buffer. -/
  copied : List Byte
  /-- Number of bytes read from behind the message array. -/
  overrun : Nat
  /-- The module state after the call. -/
  state : State
  /-- The file position `*offset` after the call, a signed `loff_t`. -/
  offset : Int
  deriving DecidableEq, Repr

/-- The function `read` of pa2_out.c.  `writable` is the number of bytes that can be stored
at the caller's pointer, `len` the `size_t` length passed in, `offset` the
value of `*offset`, which the kernel never passes negative.  The length is
returned as `ssize_t` and added to the signed `*offset`. -/
def read (s : State) (writable len offset : Nat) : ReadResult :=
  if offset ≥ MAX_SIZE then
    { ret := 0, copied := [], overrun := 0, state := s, offset := (offset : Int) }
  else if s.input_mutex then
    { ret := -EBUSY, copied := [], overrun := 0, state := s, offset := (offset : Int) }
  else
    let c := copy_to_user writable s.shared_memory.message offset
      (toULong s.shared_memory.message_size)
    let error_count := toInt32 c.not_copied
    let s' : State := { shared_memory := memset, input_mutex := false }
    if error_count = 0 then
      { ret := toInt64 len, copied := c.stored, overrun := c.past_end, state := s',
        offset := toInt64 (offset + len) }
    else
      { ret := -EFAULT, copied := c.stored, overrun := c.past_end, state := s',
        offset := (offset : Int) }

/-- One event at the mailbox: a `write` call, a `read` call, or another caller
taking or releasing the mutex. -/
inductive Call where
  | write (buffer : List Byte) (len : Nat)
  | read (writable len offset : Nat)
  | guard (held : Bool)
  deriving DecidableEq, Repr

/-- The state after one event. -/
def step (s : State) : Call → State
  | Call.write buffer len => (write s buffer len).1
  | Call.read writable len offset => (read s writable len offset).state
  | Call.guard held => { s with input_mutex := held }

/-- The state after a sequence of events. -/
def run (s : State) (calls : List Call) : State :=
  calls.foldl step s

/-- The bytes `write` keeps of the caller's memory: the string at the pointer,
cut to `MAX_SIZE - 1` bytes. -/
def kept (buffer : List Byte) : List Byte :=
  (cstr buffer).take (MAX_SIZE - 1)

/-- The message array that holds `m` and is zero behind it. -/
def padded (m : List Byte) : List Byte :=
  m ++ List.replicate (MAX_SIZE - m.length) 0

/-- The form of the shared memory the two calls maintain: a string `m` without
NUL of at most `MAX_SIZE - 1` bytes, zero padded, with its length as size. -/
def Shaped (s : State) : Prop :=
  ∃ m : List Byte, (∀ b ∈ m, b ≠ 0) ∧ m.length ≤ MAX_SIZE - 1 ∧
    s.shared_memory = { message := padded m, message_size := (m.length : Int) }

end HW2

/-!
The single device of Programming_HW1

`lkmasg1.c` keeps one message in a static array and hands it out through a
read pointer, `msg_Ptr`, that moves forward with every byte read.
-/

namespace HW1

open HW2 (Byte cstr snprintf toShort)

/-- The buffer size, `MAX_SIZE 1024` in lkmasg1.c. -/
def MAX_SIZE : Nat := 1024

/-- The static variables of lkmasg1.c: `char message[MAX_SIZE]`, the read
pointer `msg_Ptr` (`none` for `NULL`, `some i` for `message + i`) and
`short message_size`. -/
structure State where
  message : List Byte
  msg_Ptr : Option Nat
  message_size : Int
  deriving DecidableEq, Repr

/-- The variables at module start: `message` is zeroed, and `msg_Ptr`, which
no start-up code assigns, is `NULL`. -/
def fresh : State :=
  { message := List.replicate MAX_SIZE 0, msg_Ptr := none, message_size := 0 }

/-- The call `strncpy(dst, src, n)`: the first `n` bytes of the string at `src`
go to the start of `dst`, filled up with NUL to `n` bytes when the string is
shorter; the rest of `dst` stays. -/
def strncpy (dst src : List Byte) (n : Nat) : List Byte :=
  (cstr src).take n ++ List.replicate (n - (cstr src).length) 0 ++ dst.drop n

/-- The call `strlen(p)`. -/
def strlen (mem : List Byte) : Int :=
  ((cstr mem).length : Int)

/-- The function `write` of lkmasg1.c.  `buffer` is the caller's memory at the
pointer passed in, `len` the length passed in.  Of the undefined stack array
`tmp_message` only the bytes `snprintf` stores are kept.  The result is the
new state and the value returned to the caller. -/
def write (s : State) (buffer : List Byte) (len : Nat) : State × Int :=
  let len := if len ≥ MAX_SIZE then MAX_SIZE - 1 else len
  let tmp := snprintf [] MAX_SIZE buffer
  let tmp_message := if tmp.2 ≥ (MAX_SIZE : Int) then tmp.1.set (MAX_SIZE - 1) 0 else tmp.1
  let tmp_len : Int := if tmp.2 ≥ (MAX_SIZE : Int) then (MAX_SIZE : Int) - 1 else tmp.2
  let message := strncpy s.message tmp_message tmp_len.toNat
  let message := message.set tmp_len.toNat 0
  ({ message := message, msg_Ptr := some 0, message_size := toShort (strlen message) },
   (len : Int))

/-- The message `write` stores for the caller's memory `buffer`: the string at
the pointer, cut to `MAX_SIZE - 1` bytes. -/
def message_of (buffer : List Byte) : List Byte :=
  (cstr buffer).take (MAX_SIZE - 1)

/-- The loop `while (len && *msg_Ptr)` of `read`, started with `len` bytes
still wanted and `msg_Ptr = message + p`: the bytes it reads and the position
it stops at.  The result is `none` when `msg_Ptr` is dereferenced outside the
array. -/
def read_loop (message : List Byte) : Nat → Nat → Option (List Byte × Nat)
  | 0, p => some ([], p)
  | len + 1, p =>
    match message[p]? with
    | none => none
    | some b =>
      if b = 0 then some ([], p)
      else (read_loop message len (p + 1)).map (fun r => (b :: r.1, r.2))

/-- The outcome of one `read` call. -/
structure ReadResult where
  /-- The value returned to the caller, `bytes_read`. -/
  ret : Int
  /-- The bytes `put_user` stored in the caller's buffer. -/
  copied : List Byte
  /-- The variables after the call. -/
  state : State
  deriving DecidableEq, Repr

/-- The function `read` of lkmasg1.c.  `writable` is the number of bytes that
can be stored at the caller's pointer (a failing `put_user` is not noticed by
the code), `len` the length passed in.  The result is `none` when `msg_Ptr`
is dereferenced while `NULL` or outside the array.  `bytes_read` counts bytes
of the array, so it stays below `MAX_SIZE` and the `int` does not wrap. -/
def read (s : State) (writable len : Nat) : Option ReadResult :=
  match s.msg_Ptr with
  | none => none
  | some p =>
    match s.message[p]? with
    | none => none
    | some b =>
      if b = 0 then some { ret := 0, copied := [], state := s }
      else
        match read_loop s.message len p with
        | none => none
        | some r =>
          some { ret := (r.1.length : Int), copied := r.1.take writable,
                 state := { s with msg_Ptr := some r.2 } }

end HW1

namespace HW2

/-! ## Lemmas on the building blocks -/

theorem length_memset : memset.message.length = MAX_SIZE := by
  simp [memset]

theorem cstr_ne_zero (mem : List Byte) : ∀ b ∈ cstr mem, b ≠ 0 := by
  intro b hb
  have := List.mem_takeWhile_imp hb
  simpa using this

theorem cstr_eq_self (m : List Byte) (h : ∀ b ∈ m, b ≠ 0) : cstr m = m := by
  unfold cstr
  rw [List.takeWhile_eq_self_iff]
  intro b hb
  simpa using h b hb

theorem cstr_append_zero (m rest : List Byte) (h : ∀ b ∈ m, b ≠ 0) :
    cstr (m ++ 0 :: rest) = m := by
  induction m with
  | nil => simp [cstr]
  | cons a m ih =>
    have ha : a ≠ 0 := h a (by simp)
    have hm : ∀ b ∈ m, b ≠ 0 := fun b hb => h b (by simp [hb])
    have := ih hm
    simp only [cstr] at this ⊢
    simp only [List.cons_append, List.takeWhile_cons, ha, ne_eq, not_false_eq_true,
      decide_True, if_true, this]

theorem kept_ne_zero (buffer : List Byte) : ∀ b ∈ kept buffer, b ≠ 0 := by
  intro b hb
  exact cstr_ne_zero buffer b (List.mem_of_mem_take hb)

theorem kept_length_le (buffer : List Byte) : (kept buffer).length ≤ MAX_SIZE - 1 := by
  simp [kept, List.length_take]

theorem toShort_small (n : Nat) (h : n ≤ 1023) : toShort (n : Int) = n := by
  unfold toShort
  omega

theorem toULong_small (n : Nat) (h : n ≤ 1023) : toULong (n : Int) = n := by
  unfold toULong
  omega

theorem set_append_zero (m rest : List Byte) :
    (m ++ 0 :: rest).set m.length 0 = m ++ 0 :: rest := by
  induction m with
  | nil => simp
  | cons a m ih => simp [ih]

/-- With the mutex free, `write` leaves the kept bytes, zero padded, and their
count in the shared memory, releases the mutex again, and returns the length
it was given, cut to `MAX_SIZE - 1`. -/
theorem write_free (s : State) (buffer : List Byte) (len : Nat)
    (h : s.input_mutex = false) :
    write s buffer len =
      ({ shared_memory := { message := padded (kept buffer),
                            message_size := ((kept buffer).length : Int) },
         input_mutex := false },
       ((if len ≥ MAX_SIZE then MAX_SIZE - 1 else len : Nat) : Int)) := by
  have hk := kept_length_le buffer
  have hnz := kept_ne_zero buffer
  have htmp : (if (snprintf [] MAX_SIZE buffer).2 ≥ (MAX_SIZE : Int)
      then (snprintf [] MAX_SIZE buffer).1.set (MAX_SIZE - 1) 0
      else (snprintf [] MAX_SIZE buffer).1) = kept buffer ++ [0] := by
    split
    · rename_i hge
      have hlen : (kept buffer).length = MAX_SIZE - 1 := by
        simp only [snprintf, MAX_SIZE] at hge
        simp only [kept, MAX_SIZE, List.length_take]
        omega
      simp only [snprintf, List.drop_nil, List.append_nil]
      have := set_append_zero (kept buffer) []
      rw [hlen] at this
      exact this
    · simp [snprintf, kept]
  unfold write
  simp only [h, htmp]
  have hc : cstr (kept buffer ++ [0]) = kept buffer := cstr_append_zero _ [] hnz
  have hsn : snprintf memset.message MAX_SIZE (kept buffer ++ [0])
      = (kept buffer ++ 0 :: List.replicate (MAX_SIZE - ((kept buffer).length + 1)) 0,
         ((kept buffer).length : Int)) := by
    simp only [snprintf, hc, memset]
    have : List.take (MAX_SIZE - 1) (kept buffer) = kept buffer :=
      List.take_of_length_le hk
    simp [this]
  simp only [hsn]
  have hsh : toShort ((kept buffer).length : Int) = (kept buffer).length :=
    toShort_small _ (by simp only [MAX_SIZE] at hk; omega)
  simp only [hsh, Int.toNat_ofNat, set_append_zero]
  have hp : kept buffer ++ 0 :: List.replicate (MAX_SIZE - ((kept buffer).length + 1)) 0
      = padded (kept buffer) := by
    unfold padded
    have : MAX_SIZE - (kept buffer).length = (MAX_SIZE - ((kept buffer).length + 1)) + 1 := by
      simp only [MAX_SIZE] at hk ⊢; omega
    rw [this, List.replicate_succ]
  simp [hp]

theorem length_padded (m : List Byte) (h : m.length ≤ MAX_SIZE - 1) :
    (padded m).length = MAX_SIZE := by
  simp only [padded, MAX_SIZE, List.length_append, List.length_replicate] at h ⊢
  omega

theorem take_padded (m : List Byte) : (padded m).take m.length = m := by
  simp [padded]

theorem drop_padded (m : List Byte) :
    (padded m).drop m.length = List.replicate (MAX_SIZE - m.length) 0 := by
  simp [padded]

/-- With the mutex free, an offset inside the array, a memory that holds `m`
zero padded, and room for `m` at the caller, `read` copies `m.length` bytes
from position `offset` on, clears the memory and returns `len`. -/
theorem read_free (s : State) (writable len offset : Nat) (m : List Byte)
    (h : s.input_mutex = false) (ho : offset < MAX_SIZE)
    (hm : m.length ≤ MAX_SIZE - 1)
    (hs : s.shared_memory = { message := padded m, message_size := (m.length : Int) })
    (hw : m.length ≤ writable) :
    read s writable len offset =
      { ret := toInt64 len
        copied := ((padded m).drop offset).take m.length
        overrun := offset + m.length - MAX_SIZE
        state := { shared_memory := memset, input_mutex := false }
        offset := toInt64 (offset + len) } := by
  have hno : ¬ offset ≥ MAX_SIZE := by omega
  have hu : toULong (m.length : Int) = m.length :=
    toULong_small _ (by simp only [MAX_SIZE] at hm; omega)
  unfold read
  simp only [hno, h, hs, hu, copy_to_user, min_eq_left hw, length_padded m hm]
  simp [toInt32]

/-- The memory that `write` leaves behind, and the mutex free. -/
theorem write_free_state (s : State) (buffer : List Byte) (len : Nat)
    (h : s.input_mutex = false) :
    (write s buffer len).1 =
      { shared_memory := { message := padded (kept buffer),
                           message_size := ((kept buffer).length : Int) },
        input_mutex := false } := by
  rw [write_free s buffer len h]

theorem kept_eq_self (X : List Byte) (hnz : ∀ b ∈ X, b ≠ 0) (hl : X.length < 1024) :
    kept X = X := by
  unfold kept
  rw [cstr_eq_self X hnz]
  exact List.take_of_length_le (by simp only [MAX_SIZE]; omega)

theorem kept_eq_take (X : List Byte) (hnz : ∀ b ∈ X, b ≠ 0) :
    kept X = X.take 1023 := by
  unfold kept
  rw [cstr_eq_self X hnz]
  rfl

theorem cstr_append_of_ne_zero (m rest : List Byte) (h : ∀ b ∈ m, b ≠ 0) :
    cstr (m ++ rest) = m ++ cstr rest := by
  induction m with
  | nil => rfl
  | cons a m ih =>
    have ha : a ≠ 0 := h a (by simp)
    have hm : ∀ b ∈ m, b ≠ 0 := fun b hb => h b (by simp [hb])
    have := ih hm
    simp only [cstr] at this ⊢
    simp only [List.cons_append, List.takeWhile_cons, ha, ne_eq, not_false_eq_true,
      decide_True, if_true, this]

/-- When the first 1023 bytes of a memory of at least 1023 bytes hold no NUL,
they are the bytes `write` keeps, whatever follows them. -/
theorem kept_eq_take_of_head (X : List Byte) (hlen : 1023 ≤ X.length)
    (hnz : ∀ b ∈ X.take 1023, b ≠ 0) : kept X = X.take 1023 := by
  have hl : (X.take 1023).length = 1023 := by
    rw [List.length_take]; omega
  have hsplit : cstr X = X.take 1023 ++ cstr (X.drop 1023) := by
    have h := cstr_append_of_ne_zero (X.take 1023) (X.drop 1023) hnz
    rw [List.take_append_drop] at h
    exact h
  unfold kept
  rw [hsplit]
  exact List.take_left' hl

theorem toInt64_small (n : Nat) (h : n < 9223372036854775808) : toInt64 n = (n : Int) := by
  unfold toInt64
  omega

theorem cstr_padded (m : List Byte) (hnz : ∀ b ∈ m, b ≠ 0)
    (hm : m.length ≤ MAX_SIZE - 1) : cstr (padded m) = m := by
  unfold padded
  have : MAX_SIZE - m.length = (MAX_SIZE - m.length - 1) + 1 := by
    simp only [MAX_SIZE] at hm ⊢; omega
  rw [this, List.replicate_succ]
  exact cstr_append_zero m _ hnz

theorem shaped_memset (g : Bool) : Shaped { shared_memory := memset, input_mutex := g } := by
  refine ⟨[], by simp, by simp, ?_⟩
  simp [memset, padded]

theorem shaped_write (s : State) (buffer : List Byte) (len : Nat) (h : Shaped s) :
    Shaped (write s buffer len).1 := by
  cases hg : s.input_mutex with
  | true =>
    have : write s buffer len = (s, -EBUSY) := by simp [write, hg]
    rw [this]
    exact h
  | false =>
    rw [write_free_state s buffer len hg]
    exact ⟨kept buffer, kept_ne_zero buffer, kept_length_le buffer, rfl⟩

theorem state_read (s : State) (writable len offset : Nat) :
    (read s writable len offset).state = s ∨
    (read s writable len offset).state = { shared_memory := memset, input_mutex := false } := by
  have e : (read s writable len offset).state =
      if offset ≥ MAX_SIZE then s else if s.input_mutex = true then s
        else { shared_memory := memset, input_mutex := false } := by
    unfold read
    simp only [apply_ite ReadResult.state, ite_self]
  rw [e]
  by_cases h1 : offset ≥ MAX_SIZE
  · exact Or.inl (if_pos h1)
  · by_cases h2 : s.input_mutex = true
    · left
      rw [if_neg h1, if_pos h2]
    · right
      rw [if_neg h1, if_neg h2]

theorem shaped_read (s : State) (writable len offset : Nat) (h : Shaped s) :
    Shaped (read s writable len offset).state := by
  rcases state_read s writable len offset with e | e
  · rw [e]; exact h
  · rw [e]; exact shaped_memset false

theorem shaped_step (s : State) (c : Call) (h : Shaped s) : Shaped (step s c) := by
  cases c with
  | write buffer len => exact shaped_write s buffer len h
  | read writable len offset => exact shaped_read s writable len offset h
  | guard held =>
    obtain ⟨m, hnz, hm, hs⟩ := h
    exact ⟨m, hnz, hm, hs⟩

theorem shaped_run (calls : List Call) : ∀ s : State, Shaped s → Shaped (run s calls) := by
  induction calls with
  | nil => intro s h; exact h
  | cons c cs ih =>
    intro s h
    exact ih (step s c) (shaped_step s c h)

/-! ## The claims -/

/-- C5: for every offset of at least 1024 and every state, `read` returns 0,
stores nothing in the caller's buffer, reads nothing, and leaves the buffer,
the message size, the mutex and the file position as they were. -/
theorem read_offset_beyond_end (s : State) (writable len offset : Nat)
    (h : 1024 ≤ offset) :
    (read s writable len offset).ret = 0 ∧
    (read s writable len offset).copied = [] ∧
    (read s writable len offset).overrun = 0 ∧
    (read s writable len offset).state = s ∧
    (read s writable len offset).offset = offset := by
  have h' : offset ≥ MAX_SIZE := h
  simp [read, h']

theorem read_offset_beyond_end_witness :
    1024 ≤ 2000 ∧
    (read (write fresh [72, 105] 2).1 10 10 2000).ret = 0 ∧
    (read (write fresh [72, 105] 2).1 10 10 2000).copied = [] ∧
    (read (write fresh [72, 105] 2).1 10 10 2000).overrun = 0 ∧
    (read (write fresh [72, 105] 2).1 10 10 2000).state = (write fresh [72, 105] 2).1 ∧
    (read (write fresh [72, 105] 2).1 10 10 2000).offset = 2000 :=
  ⟨by decide, read_offset_beyond_end _ 10 10 2000 (by decide)⟩

/-- C6: while the mutex is held, `write` returns `-EBUSY` for every input and
`read` returns `-EBUSY` for every offset below 1024, and neither changes the
buffer, the message size or the mutex. -/
theorem busy_when_guard_held (s : State) (h : s.input_mutex = true) :
    (∀ buffer len, write s buffer len = (s, -EBUSY)) ∧
    (∀ writable len offset, offset < 1024 →
      (read s writable len offset).ret = -EBUSY ∧
      (read s writable len offset).copied = [] ∧
      (read s writable len offset).state = s ∧
      (read s writable len offset).offset = offset) := by
  constructor
  · intro buffer len
    simp [write, h]
  · intro writable len offset ho
    have h' : ¬ offset ≥ MAX_SIZE := by simp [MAX_SIZE]; omega
    simp [read, h', h]

theorem busy_when_guard_held_witness :
    (step fresh (Call.guard true)).input_mutex = true ∧
    (∀ buffer len, write (step fresh (Call.guard true)) buffer len
        = (step fresh (Call.guard true), -EBUSY)) ∧
    (∀ writable len offset, offset < 1024 →
      (read (step fresh (Call.guard true)) writable len offset).ret = -EBUSY ∧
      (read (step fresh (Call.guard true)) writable len offset).copied = [] ∧
      (read (step fresh (Call.guard true)) writable len offset).state
        = step fresh (Call.guard true) ∧
      (read (step fresh (Call.guard true)) writable len offset).offset = offset) :=
  ⟨rfl, busy_when_guard_held _ rfl⟩

/-- C1, at an input with a NUL byte: the three bytes `A`, NUL, `B` are written
with length 3 to the fresh mailbox, and the read at offset 0 that follows does
not hand out these three bytes. -/
theorem round_trip_fails_on_nul :
    (read (write fresh [65, 0, 66] 3).1 3 3 0).copied ≠ [65, 0, 66] := by
  decide

/-- C1, amended: for every byte sequence `X` without a NUL byte and shorter
than 1024, from any state with the mutex free, an accepted write of `X`
followed by a read at offset 0 into a buffer with room for `X` stores exactly
the bytes of `X` at the caller and reads nothing outside the array; the write
succeeds, and so does the read when the length it asks for fits an `ssize_t`. -/
theorem round_trip (s : State) (X : List Byte) (writable len : Nat)
    (hfree : s.input_mutex = false) (hlen : X.length < 1024)
    (hnz : ∀ b ∈ X, b ≠ 0) (hw : X.length ≤ writable) :
    (write s X X.length).2 = (X.length : Int) ∧
    (read (write s X X.length).1 writable len 0).copied = X ∧
    (read (write s X X.length).1 writable len 0).overrun = 0 ∧
    (len < 9223372036854775808 →
      0 ≤ (read (write s X X.length).1 writable len 0).ret) := by
  have hk : kept X = X := kept_eq_self X hnz hlen
  have hm : X.length ≤ MAX_SIZE - 1 := by simp only [MAX_SIZE]; omega
  have hst := write_free_state s X X.length hfree
  rw [hk] at hst
  have hr := read_free (write s X X.length).1 writable len 0 X
    (by rw [hst]) (by simp [MAX_SIZE]) hm (by rw [hst]) hw
  refine ⟨?_, ?_, ?_, ?_⟩
  · rw [write_free s X X.length hfree]
    have : ¬ X.length ≥ MAX_SIZE := by simp only [MAX_SIZE]; omega
    simp [this]
  · rw [hr]
    simp [take_padded]
  · rw [hr]
    simp only [MAX_SIZE] at hm ⊢
    omega
  · intro hl
    rw [hr]
    show 0 ≤ toInt64 len
    rw [toInt64_small len hl]
    exact Int.ofNat_nonneg len

theorem round_trip_witness :
    fresh.input_mutex = false ∧ [104, 101, 108, 108, 111].length < 1024 ∧
    (∀ b ∈ ([104, 101, 108, 108, 111] : List Byte), b ≠ 0) ∧
    [104, 101, 108, 108, 111].length ≤ 5 ∧
    (write fresh [104, 101, 108, 108, 111] 5).2 = 5 ∧
    (read (write fresh [104, 101, 108, 108, 111] 5).1 5 5 0).copied
      = [104, 101, 108, 108, 111] ∧
    (read (write fresh [104, 101, 108, 108, 111] 5).1 5 5 0).overrun = 0 ∧
    0 ≤ (read (write fresh [104, 101, 108, 108, 111] 5).1 5 5 0).ret :=
  have h := round_trip fresh [104, 101, 108, 108, 111] 5 5 rfl (by simp) (by simp) (by simp)
  ⟨rfl, by simp, by simp, by simp, h.1, h.2.1, h.2.2.1, h.2.2.2 (by norm_num)⟩

/-- C2, at the input `write "hi"`, `read`, `read` (offset 0, length 2, mutex
free): the first read hands out the two bytes and empties the mailbox; the
second read stores nothing at the caller and still returns 2, the value of a
successful read of two bytes, not a failure. -/
theorem second_read_reports_success :
    (read (write fresh [104, 105] 2).1 2 2 0).copied = [104, 105] ∧
    (read (write fresh [104, 105] 2).1 2 2 0).state.shared_memory.message_size = 0 ∧
    (read (read (write fresh [104, 105] 2).1 2 2 0).state 2 2 0).copied = [] ∧
    (read (read (write fresh [104, 105] 2).1 2 2 0).state 2 2 0).ret = 2 := by
  decide

/-- C3, at an input with a NUL byte: 1024 bytes `A`, NUL, `B`, `B`, ... are
written with length 1024, and the read at offset 0 that follows does not hand
out the first 1023 of them. -/
theorem truncation_fails_on_nul :
    (read (write fresh (65 :: 0 :: List.replicate 1022 66) 1024).1 1024 1024 0).copied
      ≠ (65 :: 0 :: List.replicate 1022 66).take 1023 := by
  decide

/-- C3, amended: for every byte sequence `X` of length at least 1024 whose
first 1023 bytes hold no NUL byte, an accepted write of `X` sets the message
size to 1023 and the first 1023 bytes of the array to those of `X`, and a read
at offset 0 into a buffer with room for 1023 bytes stores exactly the first
1023 bytes of `X` at the caller. -/
theorem truncation (s : State) (X : List Byte) (writable len : Nat)
    (hfree : s.input_mutex = false) (hlen : 1024 ≤ X.length)
    (hnz : ∀ b ∈ X.take 1023, b ≠ 0) (hw : 1023 ≤ writable) :
    (write s X X.length).1.shared_memory.message_size = 1023 ∧
    (write s X X.length).1.shared_memory.message.take 1023 = X.take 1023 ∧
    (read (write s X X.length).1 writable len 0).copied = X.take 1023 ∧
    (read (write s X X.length).1 writable len 0).overrun = 0 := by
  have hk : kept X = X.take 1023 := kept_eq_take_of_head X (by omega) hnz
  have hkl : (X.take 1023).length = 1023 := by
    rw [List.length_take]; omega
  have hm : (X.take 1023).length ≤ MAX_SIZE - 1 := by rw [hkl]; simp [MAX_SIZE]
  have hst := write_free_state s X X.length hfree
  rw [hk] at hst
  have hr := read_free (write s X X.length).1 writable len 0 (X.take 1023)
    (by rw [hst]) (by simp [MAX_SIZE]) hm (by rw [hst]) (by rw [hkl]; exact hw)
  have htp := take_padded (X.take 1023)
  rw [hkl] at htp
  refine ⟨?_, ?_, ?_, ?_⟩
  · rw [hst]
    simp [hkl]
  · rw [hst]
    exact htp
  · rw [hr]
    simp only [List.drop_zero, hkl]
    exact htp
  · rw [hr, hkl]
    simp [MAX_SIZE]

theorem truncation_witness :
    fresh.input_mutex = false ∧
    1024 ≤ (List.replicate 1023 (65 : Byte) ++ [0, 66]).length ∧
    (∀ b ∈ (List.replicate 1023 (65 : Byte) ++ [0, 66]).take 1023, b ≠ 0) ∧
    1023 ≤ 1023 ∧
    (write fresh (List.replicate 1023 65 ++ [0, 66])
      (List.replicate 1023 (65 : Byte) ++ [0, 66]).length
      ).1.shared_memory.message_size = 1023 ∧
    (write fresh (List.replicate 1023 65 ++ [0, 66])
      (List.replicate 1023 (65 : Byte) ++ [0, 66]).length
      ).1.shared_memory.message.take 1023
      = (List.replicate 1023 (65 : Byte) ++ [0, 66]).take 1023 ∧
    (read (write fresh (List.replicate 1023 65 ++ [0, 66])
      (List.replicate 1023 (65 : Byte) ++ [0, 66]).length).1 1023 1025 0).copied
      = (List.replicate 1023 (65 : Byte) ++ [0, 66]).take 1023 ∧
    (read (write fresh (List.replicate 1023 65 ++ [0, 66])
      (List.replicate 1023 (65 : Byte) ++ [0, 66]).length).1 1023 1025 0).overrun = 0 :=
  have hl : 1024 ≤ (List.replicate 1023 (65 : Byte) ++ [0, 66]).length := by
    rw [List.length_append, List.length_replicate]
    exact Nat.le_succ 1024
  have hz : ∀ b ∈ (List.replicate 1023 (65 : Byte) ++ [0, 66]).take 1023, b ≠ 0 := by
    intro b hb
    rw [List.take_left' (List.length_replicate 1023 (65 : Byte))] at hb
    rw [List.eq_of_mem_replicate hb]
    decide
  ⟨rfl, hl, hz, le_refl _,
    truncation fresh (List.replicate 1023 65 ++ [0, 66]) 1023 1025 rfl hl hz (le_refl _)⟩

/-- C4: for all messages `A` and `B` and any state with the mutex free, the
state after an accepted write of `A` and then of `B` equals the state after a
write of `B` alone to the fresh mailbox, so nothing of `A` is left in the
array, and a read at offset 0 gives the same result after both. -/
theorem overwrite_last_writer_wins (s : State) (A B : List Byte)
    (lenA lenB writable len : Nat) (hfree : s.input_mutex = false) :
    (write (write s A lenA).1 B lenB).1 = (write fresh B lenB).1 ∧
    read (write (write s A lenA).1 B lenB).1 writable len 0
      = read (write fresh B lenB).1 writable len 0 := by
  have h1 : (write s A lenA).1.input_mutex = false := by
    rw [write_free_state s A lenA hfree]
  have h2 : (write (write s A lenA).1 B lenB).1 = (write fresh B lenB).1 := by
    rw [write_free_state _ B lenB h1, write_free_state fresh B lenB rfl]
  exact ⟨h2, by rw [h2]⟩

theorem overwrite_last_writer_wins_witness :
    fresh.input_mutex = false ∧
    (write (write fresh [65, 65, 65] 3).1 [66] 1).1 = (write fresh [66] 1).1 ∧
    read (write (write fresh [65, 65, 65] 3).1 [66] 1).1 8 8 0
      = read (write fresh [66] 1).1 8 8 0 :=
  ⟨rfl, overwrite_last_writer_wins fresh [65, 65, 65] [66] 3 1 8 8 rfl⟩

/-- C7, at a write of 2000 bytes with length 2000 to the fresh mailbox: the
value returned is not the requested length 2000. -/
theorem write_return_not_requested :
    (write fresh (List.replicate 2000 65) 2000).2 ≠ 2000 := by
  decide

/-- C7, amended: every accepted write (mutex free) with requested length `len`
returns `len` when `len < 1024` and 1023 when `len >= 1024`, whatever the
number of bytes it keeps. -/
theorem write_return_value (s : State) (buffer : List Byte) (len : Nat)
    (hfree : s.input_mutex = false) :
    (write s buffer len).2 = if len < 1024 then (len : Int) else 1023 := by
  rw [write_free s buffer len hfree]
  simp only [MAX_SIZE]
  split <;> split <;> omega

theorem write_return_value_witness :
    fresh.input_mutex = false ∧
    (write fresh [104, 105, 0] 5000).2 = if 5000 < 1024 then ((5000 : Nat) : Int) else 1023 :=
  ⟨rfl, write_return_value fresh [104, 105, 0] 5000 rfl⟩

/-- C8, at the input `write "hi"` then `read` with length 100 at offset 0
(mutex free, room for 100 bytes): the mailbox holds 2 bytes, 2 bytes are
stored at the caller, and the read returns 100. -/
theorem read_returns_requested_length :
    (write fresh [104, 105] 2).1.shared_memory.message_size = 2 ∧
    (read (write fresh [104, 105] 2).1 100 100 0).copied = [104, 105] ∧
    (read (write fresh [104, 105] 2).1 100 100 0).ret = 100 := by
  decide

/-- C9: in every state reached from the fresh mailbox by any finite sequence
of `write` calls, `read` calls and mutex changes by other callers, the message
size lies between 0 and 1023, the array has 1024 bytes, every byte at an index
from the message size on is zero, and the message size is the length of the
string in the array. -/
theorem mailbox_invariant (calls : List Call) :
    0 ≤ (run fresh calls).shared_memory.message_size ∧
    (run fresh calls).shared_memory.message_size ≤ 1023 ∧
    (run fresh calls).shared_memory.message.length = 1024 ∧
    (run fresh calls).shared_memory.message.drop
        (run fresh calls).shared_memory.message_size.toNat
      = List.replicate (1024 - (run fresh calls).shared_memory.message_size.toNat) 0 ∧
    ((cstr (run fresh calls).shared_memory.message).length : Int)
      = (run fresh calls).shared_memory.message_size := by
  obtain ⟨m, hnz, hm, hs⟩ := shaped_run calls fresh (shaped_memset false)
  rw [hs]
  have hl := length_padded m hm
  simp only [MAX_SIZE] at hm hl
  refine ⟨Int.ofNat_nonneg _, ?_, hl, ?_, ?_⟩
  · show (m.length : Int) ≤ 1023
    omega
  · simp only [Int.toNat_ofNat]
    exact drop_padded m
  · rw [cstr_padded m hnz (by simp only [MAX_SIZE]; omega)]

set_option maxRecDepth 20000 in
/-- C10, at the input `write "AB"` to the fresh mailbox and then `read` at
offset 1023 (mutex free, room for 2 bytes): the copy takes 2 bytes from
position 1023 on, so one byte comes from the array and one from behind its
end, and the read returns as a success. -/
theorem read_runs_past_the_array :
    (run fresh [Call.write [65, 66] 2]).shared_memory.message_size = 2 ∧
    (read (run fresh [Call.write [65, 66] 2]) 2 2 1023).copied = [0] ∧
    (read (run fresh [Call.write [65, 66] 2]) 2 2 1023).overrun = 1 ∧
    (read (run fresh [Call.write [65, 66] 2]) 2 2 1023).ret = 2 := by
  decide

end HW2

namespace HW1

open HW2 (Byte cstr snprintf toShort)

/-! ## Lemmas on the single device -/

theorem message_of_ne_zero (buffer : List Byte) : ∀ b ∈ message_of buffer, b ≠ 0 := by
  intro b hb
  exact HW2.cstr_ne_zero buffer b (List.mem_of_mem_take hb)

theorem message_of_length_le (buffer : List Byte) : (message_of buffer).length ≤ 1023 := by
  simp only [message_of, MAX_SIZE, List.length_take]
  omega

theorem set_append_cons (m : List Byte) (x y : Byte) (r : List Byte) :
    (m ++ x :: r).set m.length y = m ++ y :: r := by
  induction m with
  | nil => simp
  | cons a m ih => simp [ih]

theorem drop_eq_cons (l : List Byte) (k : Nat) (h : k < l.length) :
    ∃ x, l.drop k = x :: l.drop (k + 1) :=
  ⟨l[k], List.drop_eq_getElem_cons h⟩

/-- The variables `write` leaves behind: the stored message, a NUL, and the
old bytes of the array behind them; the read pointer at the start. -/
theorem write_state (s : State) (buffer : List Byte) (len : Nat)
    (hs : s.message.length = MAX_SIZE) :
    (write s buffer len).1 =
      { message := message_of buffer ++ 0 :: s.message.drop ((message_of buffer).length + 1)
        msg_Ptr := some 0
        message_size := ((message_of buffer).length : Int) } := by
  have hk := message_of_length_le buffer
  have hnz := message_of_ne_zero buffer
  have htmp : (if (snprintf [] MAX_SIZE buffer).2 ≥ (MAX_SIZE : Int)
      then (snprintf [] MAX_SIZE buffer).1.set (MAX_SIZE - 1) 0
      else (snprintf [] MAX_SIZE buffer).1) = message_of buffer ++ [0] := by
    split
    · rename_i hge
      have hlen : (message_of buffer).length = MAX_SIZE - 1 := by
        simp only [snprintf, MAX_SIZE] at hge
        simp only [message_of, MAX_SIZE, List.length_take]
        omega
      simp only [snprintf, List.drop_nil, List.append_nil]
      have := HW2.set_append_zero (message_of buffer) []
      rw [hlen] at this
      exact this
    · simp [snprintf, message_of]
  have hlen : (if (snprintf [] MAX_SIZE buffer).2 ≥ (MAX_SIZE : Int)
      then (MAX_SIZE : Int) - 1 else (snprintf [] MAX_SIZE buffer).2)
      = ((message_of buffer).length : Int) := by
    simp only [snprintf, message_of, MAX_SIZE, List.length_take]
    split <;> omega
  have hc : cstr (message_of buffer ++ [0]) = message_of buffer :=
    HW2.cstr_append_zero _ [] hnz
  have hcp : strncpy s.message (message_of buffer ++ [0]) (message_of buffer).length
      = message_of buffer ++ s.message.drop (message_of buffer).length := by
    simp [strncpy, hc]
  obtain ⟨x, hx⟩ := drop_eq_cons s.message (message_of buffer).length
    (by rw [hs]; simp only [MAX_SIZE]; omega)
  have hset : (strncpy s.message (message_of buffer ++ [0]) (message_of buffer).length).set
      (message_of buffer).length 0
      = message_of buffer ++ 0 :: s.message.drop ((message_of buffer).length + 1) := by
    rw [hcp, hx]
    exact set_append_cons _ x 0 _
  have hstr : strlen (message_of buffer ++ 0 :: s.message.drop ((message_of buffer).length + 1))
      = ((message_of buffer).length : Int) := by
    unfold strlen
    rw [HW2.cstr_append_zero _ _ hnz]
  unfold write
  simp only [htmp, hlen, Int.toNat_ofNat, hset, hstr]
  rw [HW2.toShort_small _ hk]

theorem length_write (s : State) (buffer : List Byte) (len : Nat)
    (hs : s.message.length = MAX_SIZE) :
    (write s buffer len).1.message.length = MAX_SIZE := by
  have hk := message_of_length_le buffer
  rw [write_state s buffer len hs]
  simp only [List.length_append, List.length_cons, List.length_drop, hs, MAX_SIZE]
  omega

/-! ## The claim on the single device -/

end HW1
